import Mathlib

/-!
Verification of the output-parameter classifier of nopcrat (src/analysis.rs).

The data model and the operations below are a shallow embedding of the
Rust source: `Place`, `Rvalue`, the two lattices `MayPlaceSet` and
`MustPlaceSet`, the transfer functions of `ReadAnalysis` and
`WriteAnalysis`, `rvalue_to_places`, the `WriteVisitor`, the
`ReturnVisitor` fold, and the classifier in `analyze`.  The generic
worklist fixpoint solver is the external `rustc_mir_dataflow` engine and
is therefore modelled from the spec (see the engine section).
-/

namespace Nopcrat

/-- Projection element of a MIR place: dereference, field access or index
access (mirrors `rustc_middle::mir::PlaceElem` as far as this analysis
inspects it). -/
inductive PlaceElem : Type
  | Deref : PlaceElem
  | Field (idx : Nat) : PlaceElem
  | Index (idx : Nat) : PlaceElem
deriving DecidableEq

/-- A MIR place: a root local (the source field is `local`, a Lean keyword,
hence `localIdx` here) plus a list of projections. -/
structure Place where
  localIdx : Nat
  projection : List PlaceElem
deriving DecidableEq

/-- Source `Place::is_indirect_first_projection`: the first projection
element is a dereference. -/
def Place.is_indirect_first_projection (p : Place) : Bool :=
  p.projection.head? == some PlaceElem.Deref

/-- A MIR operand (mirrors `rustc_middle::mir::Operand`). -/
inductive Operand : Type
  | Copy (p : Place) : Operand
  | Move (p : Place) : Operand
  | Constant : Operand
deriving DecidableEq

/-- Source `Operand::place`: the place of a copy or move operand, none for
a constant. -/
def Operand.place : Operand → Option Place
  | .Copy p => some p
  | .Move p => some p
  | .Constant => none

/-- A right-hand side (mirrors `rustc_middle::mir::Rvalue`; arguments this
analysis never inspects, such as cast kinds, binary operators, regions and
types, are omitted). -/
inductive Rvalue : Type
  | Use (o : Operand) : Rvalue
  | Repeat (o : Operand) : Rvalue
  | Cast (o : Operand) : Rvalue
  | UnaryOp (o : Operand) : Rvalue
  | ShallowInitBox (o : Operand) : Rvalue
  | BinaryOp (o1 o2 : Operand) : Rvalue
  | CheckedBinaryOp (o1 o2 : Operand) : Rvalue
  | Aggregate (os : List Operand) : Rvalue
  | CopyForDeref (p : Place) : Rvalue
  | Ref (p : Place) : Rvalue
  | ThreadLocalRef : Rvalue
  | AddressOf (p : Place) : Rvalue
  | Len (p : Place) : Rvalue
  | NullaryOp : Rvalue
  | Discriminant (p : Place) : Rvalue
deriving DecidableEq

/-- A MIR statement: either an assignment (`StatementKind::Assign`) or any
other statement kind, which both analyses ignore. -/
inductive Statement : Type
  | Assign (lhs : Place) (rhs : Rvalue) : Statement
  | Nop : Statement
deriving DecidableEq

/-- A terminator, reduced to what the analysis consumes: its successor
edges and whether it is a `Return`. -/
inductive TerminatorKind : Type
  | Goto (target : Nat) : TerminatorKind
  | SwitchInt (targets : List Nat) : TerminatorKind
  | Return : TerminatorKind
  | Call (destination : Place) (target : Option Nat) : TerminatorKind
  | Unreachable : TerminatorKind
deriving DecidableEq

/-- Successor block indices of a terminator (source `Terminator::edges` /
`successors`). -/
def TerminatorKind.successors : TerminatorKind → List Nat
  | .Goto target => [target]
  | .SwitchInt targets => targets
  | .Return => []
  | .Call _ target => target.toList
  | .Unreachable => []

/-- A basic block: statements followed by one terminator. -/
structure BasicBlockData where
  statements : List Statement
  terminator : TerminatorKind
deriving DecidableEq

/-- A function body: an ordered list of basic blocks; block 0 is the
entry. -/
structure Body where
  blocks : List BasicBlockData
deriving DecidableEq

/-- Block lookup by index; out-of-range indices yield an empty diverging
block (never consulted on well-formed bodies). -/
def Body.block (body : Body) (b : Nat) : BasicBlockData :=
  body.blocks.getD b ⟨[], TerminatorKind.Unreachable⟩

/-- The may-lattice of the backward analysis: a set of places
(source `MayPlaceSet`, a `HashSet<Place>`). -/
abbrev MayPlaceSet := Finset Place

/-- Source `MayPlaceSet::bottom`: the empty set. -/
def MayPlaceSet.bottom : MayPlaceSet := ∅

/-- Source `GenKill::gen` for `MayPlaceSet`: insert. -/
def MayPlaceSet.gen (s : MayPlaceSet) (place : Place) : MayPlaceSet :=
  insert place s

/-- Source `GenKill::kill` for `MayPlaceSet`: remove. -/
def MayPlaceSet.kill (s : MayPlaceSet) (place : Place) : MayPlaceSet :=
  s.erase place

/-- The must-lattice (source `MustPlaceSet`): either `All` (what the spec
calls `Top`: no constraint yet / unreached) or a concrete set of places. -/
inductive MustPlaceSet : Type
  | All : MustPlaceSet
  | Set (s : Finset Place) : MustPlaceSet
deriving DecidableEq

/-- Source `MustPlaceSet::bottom`: the `All` variant. -/
def MustPlaceSet.bottom : MustPlaceSet := MustPlaceSet.All

/-- Source `MustPlaceSet::top`: the concrete empty set (the source names
`All` "bottom" and `Set(empty)` "top"; the spec calls `All` "Top"). -/
def MustPlaceSet.top : MustPlaceSet := MustPlaceSet.Set ∅

/-- Source `MustPlaceSet::into_set`: the concrete set, if any. -/
def MustPlaceSet.into_set : MustPlaceSet → Option (Finset Place)
  | .All => none
  | .Set s => some s

/-- Source `JoinSemiLattice::join` for `MustPlaceSet`, returning the new
value of `self` together with the changed flag. -/
def MustPlaceSet.join : MustPlaceSet → MustPlaceSet → MustPlaceSet × Bool
  | x, .All => (x, false)
  | .All, .Set s => (.Set s, true)
  | .Set s1, .Set s2 =>
      let s1' := s1.filter (fun p => p ∈ s2)
      (.Set s1', decide (s1'.card < s1.card))

/-- Source `GenKill::gen` for `MustPlaceSet`: insert into a concrete set,
no effect on `All`. -/
def MustPlaceSet.gen (s : MustPlaceSet) (place : Place) : MustPlaceSet :=
  match s with
  | .All => .All
  | .Set set => .Set (insert place set)

/-- Source `GenKill::kill` for `MustPlaceSet`: remove from a concrete set,
no effect on `All`. -/
def MustPlaceSet.kill (s : MustPlaceSet) (place : Place) : MustPlaceSet :=
  match s with
  | .All => .All
  | .Set set => .Set (set.erase place)

/-- Source `rvalue_to_places` helper `add_opt`: push the place of an
operand, if it has one. -/
def add_opt (places : List Place) (opt : Option Place) : List Place :=
  match opt with
  | some place => places ++ [place]
  | none => places

/-- Source `rvalue_to_places`: the operand places a right-hand side
contributes to the read analysis. -/
def rvalue_to_places (rvalue : Rvalue) : List Place :=
  match rvalue with
  | .Use o | .Repeat o | .Cast o | .UnaryOp o | .ShallowInitBox o =>
      add_opt [] o.place
  | .BinaryOp o1 o2 | .CheckedBinaryOp o1 o2 =>
      add_opt (add_opt [] o1.place) o2.place
  | .Aggregate os => os.foldl (fun places o => add_opt places o.place) []
  | .CopyForDeref p => add_opt [] (some p)
  | .Ref _ | .ThreadLocalRef | .AddressOf _ | .Len _ | .NullaryOp
  | .Discriminant _ => []

/-- Source `WriteVisitor::visit_assign` folded over the whole body
(`visit_body` visits every basic block, reachable or not): every assigned
place that is an indirect first projection. -/
def writeVisitor (body : Body) : Finset Place :=
  body.blocks.foldl
    (fun acc bb =>
      bb.statements.foldl
        (fun acc stmt =>
          match stmt with
          | .Assign place _ =>
              if place.is_indirect_first_projection then insert place acc else acc
          | .Nop => acc)
        acc)
    ∅

/-- Source `ReadAnalysis::apply_statement_effect`: on an assignment, kill
the left-hand side when it is an indirect first projection, then gen every
indirect-first-projection place of the right-hand side. -/
def ReadAnalysis.apply_statement_effect (state : MayPlaceSet)
    (statement : Statement) : MayPlaceSet :=
  match statement with
  | .Assign place rvalue =>
      let state :=
        if place.is_indirect_first_projection then MayPlaceSet.kill state place
        else state
      (rvalue_to_places rvalue).foldl
        (fun state place =>
          if place.is_indirect_first_projection then MayPlaceSet.gen state place
          else state)
        state
  | .Nop => state

/-- Source `ReadAnalysis::apply_terminator_effect`: the state is not
modified (the source only returns the terminator edges). -/
def ReadAnalysis.apply_terminator_effect (state : MayPlaceSet)
    (_ : TerminatorKind) : MayPlaceSet :=
  state

/-- Source `ReadAnalysis::apply_call_return_effect`: no effect. -/
def ReadAnalysis.apply_call_return_effect (state : MayPlaceSet)
    (_ : Place) : MayPlaceSet :=
  state

/-- Source `WriteAnalysis::apply_statement_effect`: on an assignment, gen
the left-hand side when it is an indirect first projection. -/
def WriteAnalysis.apply_statement_effect (state : MustPlaceSet)
    (statement : Statement) : MustPlaceSet :=
  match statement with
  | .Assign place _ =>
      if place.is_indirect_first_projection then MustPlaceSet.gen state place
      else state
  | .Nop => state

/-- Source `WriteAnalysis::apply_terminator_effect`: the state is not
modified. -/
def WriteAnalysis.apply_terminator_effect (state : MustPlaceSet)
    (_ : TerminatorKind) : MustPlaceSet :=
  state

/-- Source `WriteAnalysis::apply_call_return_effect`: no effect. -/
def WriteAnalysis.apply_call_return_effect (state : MustPlaceSet)
    (_ : Place) : MustPlaceSet :=
  state

/-- Bounded iteration of a step function (used to run the fixpoint engine
a fixed number of rounds). -/
def iterateN (f : α → α) : Nat → α → α
  | 0, a => a
  | n + 1, a => iterateN f n (f a)

/-- Modelled from the spec: the generic worklist fixpoint solver (spec
section 2, "Dataflow Engine") is the external `rustc_mir_dataflow` engine,
not part of this repository.  Per-block initial value of the Must-Write
analysis: the entry block starts from the concrete empty set
(`initialize_start_block` sets `MustPlaceSet::top()`), every other block
from `All` (`bottom_value`). -/
def mustInitVal (b : Nat) : MustPlaceSet :=
  if b = 0 then MustPlaceSet.top else MustPlaceSet.bottom

/-- Modelled from the spec: initial state vector of the Must-Write
analysis, one value per block. -/
def mustInit (body : Body) : List MustPlaceSet :=
  (List.range body.blocks.length).map mustInitVal

/-- Fold of the `MustPlaceSet` join over a list of incoming values. -/
def mustJoinN (a : MustPlaceSet) (l : List MustPlaceSet) : MustPlaceSet :=
  l.foldl (fun acc x => (acc.join x).1) a

/-- State after the statements of a block, which is also the state the
engine exposes at the terminator before its primary effect. -/
def mustBlockOut (bb : BasicBlockData) (s : MustPlaceSet) : MustPlaceSet :=
  bb.statements.foldl WriteAnalysis.apply_statement_effect s

/-- Modelled from the spec: the value a block propagates along one of its
outgoing edges — the block transfer, then the terminator effect, then, on
a call edge, the call-return effect. -/
def mustEdgeValue (bb : BasicBlockData) (s : MustPlaceSet) (target : Nat) :
    MustPlaceSet :=
  match bb.terminator with
  | .Call destination t =>
      if t = some target then
        WriteAnalysis.apply_call_return_effect
          (WriteAnalysis.apply_terminator_effect (mustBlockOut bb s) bb.terminator)
          destination
      else WriteAnalysis.apply_terminator_effect (mustBlockOut bb s) bb.terminator
  | _ => WriteAnalysis.apply_terminator_effect (mustBlockOut bb s) bb.terminator

/-- Predecessor block indices of a block. -/
def preds (body : Body) (b : Nat) : List Nat :=
  (List.range body.blocks.length).filter
    (fun p => decide (b ∈ (body.block p).terminator.successors))

/-- Modelled from the spec: one simultaneous round of the forward
Must-Write engine — each block takes its initial value joined with the
value propagated over every incoming edge. -/
def mustStep (body : Body) (σ : List MustPlaceSet) : List MustPlaceSet :=
  (List.range body.blocks.length).map fun b =>
    mustJoinN (mustInitVal b)
      ((preds body b).map fun p =>
        mustEdgeValue (body.block p) (σ.getD p MustPlaceSet.bottom) b)

/-- Modelled from the spec: a state vector is a fixpoint of the Must-Write
engine when one more round leaves it unchanged. -/
def isMustFixpoint (body : Body) (σ : List MustPlaceSet) : Prop :=
  mustStep body σ = σ

/-- Iteration budget for the concrete engine runs. -/
def engineFuel (body : Body) : Nat :=
  body.blocks.length * body.blocks.length + body.blocks.length + 1

/-- Modelled from the spec: the state vector the Must-Write engine
computes (`iterate_to_fixpoint`), realized as bounded round iteration from
the initial vector. -/
def mustResults (body : Body) : List MustPlaceSet :=
  iterateN (mustStep body) (engineFuel body) (mustInit body)

/-- State a block of the backward Read analysis propagates: the successor
join after the call-return effect (a no-op) and the terminator effect,
pushed backward through the statements in reverse order. -/
def readTransferBlock (bb : BasicBlockData) (v : MayPlaceSet) : MayPlaceSet :=
  let v :=
    match bb.terminator with
    | .Call destination _ => ReadAnalysis.apply_call_return_effect v destination
    | _ => v
  bb.statements.reverse.foldl ReadAnalysis.apply_statement_effect
    (ReadAnalysis.apply_terminator_effect v bb.terminator)

/-- Modelled from the spec: one simultaneous round of the backward
Reads-Before-Write engine — each block transfers the union of its
successor values backward through the block. -/
def readStep (body : Body) (σ : List MayPlaceSet) : List MayPlaceSet :=
  (List.range body.blocks.length).map fun b =>
    readTransferBlock (body.block b)
      (((body.block b).terminator.successors).foldl
        (fun acc s => acc ∪ σ.getD s ∅) ∅)

/-- Modelled from the spec: a state vector is a fixpoint of the
Reads-Before-Write engine when one more round leaves it unchanged. -/
def isReadFixpoint (body : Body) (σ : List MayPlaceSet) : Prop :=
  readStep body σ = σ

/-- Modelled from the spec: initial state vector of the Reads-Before-Write
engine, the empty set for every block (`bottom_value`;
`initialize_start_block` is a no-op). -/
def readInitOf (body : Body) : List MayPlaceSet :=
  (List.range body.blocks.length).map fun _ => (∅ : MayPlaceSet)

/-- Modelled from the spec: the state vector the Reads-Before-Write engine
computes. -/
def readResults (body : Body) : List MayPlaceSet :=
  iterateN (readStep body) (engineFuel body) (readInitOf body)

/-- The entry value consumed by the classifier: the Reads-Before-Write
fixpoint at the start of block 0 (`seek_to_block_start` on block 0 in the
source). -/
def readEntry (body : Body) : MayPlaceSet :=
  (readResults body).getD 0 ∅

/-- One expansion round of the reachable-block set: a set together with
every successor of its members. -/
def reachStep (body : Body) (s : Finset Nat) : Finset Nat :=
  s ∪ s.biUnion fun b => ((body.block b).terminator.successors).toFinset

/-- Block indices reachable from the entry, computed by bounded closure
(mirrors the reachable-set traversal behind `visit_reachable_with`). -/
def reachableSet (body : Body) : Finset Nat :=
  iterateN (reachStep body) body.blocks.length {0}

/-- Reachable blocks in index order: the visit order of the model of
`visit_reachable_with`. -/
def reachList (body : Body) : List Nat :=
  (List.range body.blocks.length).filter fun b => decide (b ∈ reachableSet body)

/-- Source `ReturnVisitor` run by `visit_reachable_with`: walk the
reachable blocks and, at every `Return` terminator, overwrite the stored
state with the state before the terminator's primary effect. -/
def returnFold (body : Body) (σ : List MustPlaceSet) : Option MustPlaceSet :=
  (reachList body).foldl
    (fun acc b =>
      if (body.block b).terminator == TerminatorKind.Return then
        some (mustBlockOut (body.block b) (σ.getD b MustPlaceSet.bottom))
      else acc)
    none

/-- The combined must-write value `analyze` consumes:
`visitor.0.unwrap_or_else(MustPlaceSet::top)`. -/
def mustCombined (body : Body) (σ : List MustPlaceSet) : MustPlaceSet :=
  (returnFold body σ).getD MustPlaceSet.top

/-- Follows the spec's words, for comparison with `mustCombined`: the
intersection join of the analysis values at every reachable `Return`
terminator, and the concrete empty set when there is none. -/
def mustCombinedSpec (body : Body) (σ : List MustPlaceSet) : MustPlaceSet :=
  let rs := (reachList body).filter
    fun b => (body.block b).terminator == TerminatorKind.Return
  if rs.isEmpty then MustPlaceSet.top
  else
    mustJoinN MustPlaceSet.bottom
      (rs.map fun b => mustBlockOut (body.block b) (σ.getD b MustPlaceSet.bottom))

/-- The classifier's restriction step (`writes.retain` in `analyze`): keep
the collected writes whose root local is a strict parameter index and
which the Reads-Before-Write entry value does not contain. -/
def restrictWrites (params : Nat) (body : Body) : Finset Place :=
  (writeVisitor body).filter fun place =>
    0 < place.localIdx ∧ place.localIdx ≤ params ∧ place ∉ readEntry body

/-- The classifier of `analyze`: restricted writes, then the split into
must-writes and may-writes.  `none` models both the early `continue` on an
empty restricted set and the (per claim C9 unreachable) `unwrap` panic on
an `All` combined value. -/
def classify (params : Nat) (body : Body) : Option (Finset Place × Finset Place) :=
  let writes := restrictWrites params body
  if writes = ∅ then none
  else
    match (mustCombined body (mustResults body)).into_set with
    | none => none
    | some m =>
        let must_writes := m.filter fun place => place ∈ writes
        let may_writes := writes.filter fun place => place ∉ must_writes
        some (must_writes, may_writes)

/-- Places a block's statements assign through an indirect first
projection (the gen set of the block for the Must-Write analysis). -/
def genAux (stmts : List Statement) (acc : Finset Place) : Finset Place :=
  stmts.foldl
    (fun acc stmt =>
      match stmt with
      | .Assign place _ =>
          if place.is_indirect_first_projection then insert place acc else acc
      | .Nop => acc)
    acc

/-- Gen set of a block: its indirectly assigned places. -/
def genSet (bb : BasicBlockData) : Finset Place :=
  genAux bb.statements ∅

/-- Well-formed body: every successor edge targets an existing block. -/
def WF (body : Body) : Prop :=
  ∀ b, b < body.blocks.length →
    ∀ t ∈ (body.block b).terminator.successors, t < body.blocks.length

/-- Reachability from the entry block along successor edges. -/
inductive Reachable (body : Body) : Nat → Prop
  | entry : Reachable body 0
  | step {b b' : Nat} : Reachable body b →
      b' ∈ (body.block b).terminator.successors → Reachable body b'

/-- Order of the must-lattice: `All` is the bottom element and concrete
sets are ordered by reverse inclusion (the join is intersection). -/
def MustPlaceSet.le : MustPlaceSet → MustPlaceSet → Prop
  | .All, _ => True
  | .Set _, .All => False
  | .Set s, .Set t => t ⊆ s

instance (body : Body) (σ : List MustPlaceSet) : Decidable (isMustFixpoint body σ) :=
  inferInstanceAs (Decidable (mustStep body σ = σ))

instance (body : Body) (σ : List MayPlaceSet) : Decidable (isReadFixpoint body σ) :=
  inferInstanceAs (Decidable (readStep body σ = σ))

instance (body : Body) : Decidable (WF body) := by
  unfold WF; infer_instance

/-- The place `*_1`: dereference of the first parameter. -/
def pDeref : Place := ⟨1, [PlaceElem.Deref]⟩

/-- The place `*_2`: dereference of the second parameter. -/
def qDeref : Place := ⟨2, [PlaceElem.Deref]⟩

/-- The local `_2` without projections. -/
def xLocal : Place := ⟨2, []⟩

/-- Straight-line body of one parameter: `*p = 1; return`. -/
def exStraight : Body :=
  ⟨[⟨[Statement.Assign pDeref (Rvalue.Use Operand.Constant)], TerminatorKind.Return⟩]⟩

/-- Two-parameter body with two reachable returns writing different
places: `if c { *p = 1; return } else { *q = 1; return }`. -/
def exTwoReturns : Body :=
  ⟨[⟨[], TerminatorKind.SwitchInt [1, 2]⟩,
    ⟨[Statement.Assign pDeref (Rvalue.Use Operand.Constant)], TerminatorKind.Return⟩,
    ⟨[Statement.Assign qDeref (Rvalue.Use Operand.Constant)], TerminatorKind.Return⟩]⟩

/-- One-parameter body reading before writing:
`_2 = *_1; *_1 = _2 + 1; return`. -/
def exReadWrite : Body :=
  ⟨[⟨[Statement.Assign xLocal (Rvalue.Use (Operand.Copy pDeref)),
      Statement.Assign pDeref (Rvalue.BinaryOp (Operand.Copy xLocal) Operand.Constant)],
     TerminatorKind.Return⟩]⟩

/-- One-parameter body whose only write to `*_1` sits in an unreachable
block: block 0 returns immediately, block 1 is dead code. -/
def exDeadWrite : Body :=
  ⟨[⟨[], TerminatorKind.Return⟩,
    ⟨[Statement.Assign pDeref (Rvalue.Use Operand.Constant)], TerminatorKind.Return⟩]⟩

theorem getD_map_range {α : Type} (f : Nat → α) {n b : Nat} (d : α) (h : b < n) :
    ((List.range n).map f).getD b d = f b := by
  rw [List.getD_eq_getElem?_getD, List.getElem?_map, List.getElem?_range h]
  rfl

theorem MustPlaceSet.le_refl (x : MustPlaceSet) : x.le x := by
  cases x with
  | All => trivial
  | Set s => exact Finset.Subset.refl s

theorem MustPlaceSet.le_trans {x y z : MustPlaceSet} (h1 : x.le y) (h2 : y.le z) :
    x.le z := by
  cases x with
  | All => trivial
  | Set s =>
    cases y with
    | All => exact absurd h1 not_false
    | Set t =>
      cases z with
      | All => exact absurd h2 not_false
      | Set u => exact Finset.Subset.trans h2 h1

theorem MustPlaceSet.join_le_left (x y : MustPlaceSet) : x.le (x.join y).1 := by
  cases x with
  | All => trivial
  | Set s1 =>
    cases y with
    | All => exact MustPlaceSet.le_refl _
    | Set s2 => exact Finset.filter_subset _ s1

theorem MustPlaceSet.join_le_right (x y : MustPlaceSet) : y.le (x.join y).1 := by
  cases x with
  | All =>
    cases y with
    | All => trivial
    | Set s2 => exact MustPlaceSet.le_refl _
  | Set s1 =>
    cases y with
    | All => trivial
    | Set s2 =>
      intro q hq
      exact (Finset.mem_filter.1 hq).2

theorem MustPlaceSet.set_le_dest {s : Finset Place} {x : MustPlaceSet}
    (h : (MustPlaceSet.Set s).le x) : ∃ t, x = MustPlaceSet.Set t ∧ t ⊆ s := by
  cases x with
  | All => exact absurd h not_false
  | Set t => exact ⟨t, rfl, h⟩

theorem le_mustJoinN_init (L : List MustPlaceSet) (a : MustPlaceSet) :
    a.le (mustJoinN a L) := by
  induction L generalizing a with
  | nil => exact MustPlaceSet.le_refl a
  | cons x L ih =>
    exact MustPlaceSet.le_trans (MustPlaceSet.join_le_left a x) (ih (a.join x).1)

theorem le_mustJoinN_mem :
    ∀ (L : List MustPlaceSet) (a x : MustPlaceSet), x ∈ L → x.le (mustJoinN a L) := by
  intro L
  induction L with
  | nil => intro a x hx; cases hx
  | cons y L ih =>
    intro a x hx
    rcases List.mem_cons.1 hx with h | h
    · subst h
      exact MustPlaceSet.le_trans (MustPlaceSet.join_le_right a x)
        (le_mustJoinN_init L (a.join x).1)
    · exact ih (a.join y).1 x h

theorem mustEdgeValue_eq (bb : BasicBlockData) (s : MustPlaceSet) (t : Nat) :
    mustEdgeValue bb s t = mustBlockOut bb s := by
  cases h : bb.terminator <;>
    simp [mustEdgeValue, h, WriteAnalysis.apply_terminator_effect,
      WriteAnalysis.apply_call_return_effect]

theorem fix_getD {body : Body} {σ : List MustPlaceSet}
    (hfix : isMustFixpoint body σ) {b : Nat} (hb : b < body.blocks.length) :
    σ.getD b MustPlaceSet.bottom
      = mustJoinN (mustInitVal b)
          ((preds body b).map fun p =>
            mustEdgeValue (body.block p) (σ.getD p MustPlaceSet.bottom) b) := by
  conv_lhs => rw [← hfix]
  exact getD_map_range _ MustPlaceSet.bottom hb

theorem fix_ge_init {body : Body} {σ : List MustPlaceSet}
    (hfix : isMustFixpoint body σ) {b : Nat} (hb : b < body.blocks.length) :
    (mustInitVal b).le (σ.getD b MustPlaceSet.bottom) := by
  rw [fix_getD hfix hb]
  exact le_mustJoinN_init _ _

theorem mem_preds {body : Body} {p b : Nat} :
    p ∈ preds body b ↔
      p < body.blocks.length ∧ b ∈ (body.block p).terminator.successors := by
  simp [preds, List.mem_filter, List.mem_range]

theorem fix_ge_pred {body : Body} {σ : List MustPlaceSet}
    (hfix : isMustFixpoint body σ) {b p : Nat} (hb : b < body.blocks.length)
    (hp : p ∈ preds body b) :
    (mustEdgeValue (body.block p) (σ.getD p MustPlaceSet.bottom) b).le
      (σ.getD b MustPlaceSet.bottom) := by
  rw [fix_getD hfix hb]
  exact le_mustJoinN_mem _ _ _ (List.mem_map_of_mem _ hp)

theorem genAux_cons_assign (place : Place) (rhs : Rvalue) (rest : List Statement)
    (acc : Finset Place) :
    genAux (Statement.Assign place rhs :: rest) acc
      = genAux rest
          (if place.is_indirect_first_projection then insert place acc else acc) := rfl

theorem genAux_cons_nop (rest : List Statement) (acc : Finset Place) :
    genAux (Statement.Nop :: rest) acc = genAux rest acc := rfl

theorem genAux_union :
    ∀ (stmts : List Statement) (acc : Finset Place),
      genAux stmts acc = acc ∪ genAux stmts ∅ := by
  intro stmts
  induction stmts with
  | nil => intro acc; simp [genAux]
  | cons st rest ih =>
    intro acc
    cases st with
    | Assign place rhs =>
      rw [genAux_cons_assign, genAux_cons_assign]
      by_cases h : place.is_indirect_first_projection = true
      · rw [if_pos h, if_pos h, ih (insert place acc), ih (insert place ∅)]
        ext q
        simp [Finset.mem_union, Finset.mem_insert]
        tauto
      · rw [if_neg h, if_neg h]
        exact ih acc
    | Nop =>
      rw [genAux_cons_nop, genAux_cons_nop]
      exact ih acc

theorem foldl_write_set :
    ∀ (stmts : List Statement) (s : Finset Place),
      stmts.foldl WriteAnalysis.apply_statement_effect (MustPlaceSet.Set s)
        = MustPlaceSet.Set (genAux stmts s) := by
  intro stmts
  induction stmts with
  | nil => intro s; rfl
  | cons st rest ih =>
    intro s
    rw [List.foldl_cons]
    cases st with
    | Assign place rhs =>
      rw [genAux_cons_assign]
      by_cases h : place.is_indirect_first_projection = true
      · rw [if_pos h]
        have heff : WriteAnalysis.apply_statement_effect (MustPlaceSet.Set s)
            (Statement.Assign place rhs) = MustPlaceSet.Set (insert place s) := by
          simp [WriteAnalysis.apply_statement_effect, h, MustPlaceSet.gen]
        rw [heff]
        exact ih (insert place s)
      · rw [if_neg h]
        have heff : WriteAnalysis.apply_statement_effect (MustPlaceSet.Set s)
            (Statement.Assign place rhs) = MustPlaceSet.Set s := by
          simp [WriteAnalysis.apply_statement_effect, h]
        rw [heff]
        exact ih s
    | Nop =>
      rw [genAux_cons_nop]
      exact ih s

theorem mustBlockOut_set (bb : BasicBlockData) (s : Finset Place) :
    mustBlockOut bb (MustPlaceSet.Set s) = MustPlaceSet.Set (s ∪ genSet bb) := by
  rw [mustBlockOut, foldl_write_set, genSet, genAux_union bb.statements s]

theorem mustBlockOut_all (bb : BasicBlockData) :
    mustBlockOut bb MustPlaceSet.All = MustPlaceSet.All := by
  rw [mustBlockOut]
  induction bb.statements with
  | nil => rfl
  | cons st rest ih =>
    cases st with
    | Assign place rhs =>
      show rest.foldl _ (WriteAnalysis.apply_statement_effect MustPlaceSet.All _) = _
      by_cases h : place.is_indirect_first_projection <;>
        simp only [WriteAnalysis.apply_statement_effect, h, if_true, if_false,
          MustPlaceSet.gen] <;> exact ih
    | Nop => exact ih

theorem reachableSet_sound {body : Body} :
    ∀ b ∈ reachableSet body, Reachable body b := by
  have key : ∀ (n : Nat) (s : Finset Nat), (∀ x ∈ s, Reachable body x) →
      ∀ x ∈ iterateN (reachStep body) n s, Reachable body x := by
    intro n
    induction n with
    | zero => intro s hs x hx; exact hs x hx
    | succ n ih =>
      intro s hs x hx
      refine ih (reachStep body s) ?_ x hx
      intro y hy
      rcases Finset.mem_union.1 hy with h | h
      · exact hs y h
      · obtain ⟨b, hb, hy'⟩ := Finset.mem_biUnion.1 h
        exact Reachable.step (hs b hb) (List.mem_toFinset.1 hy')
  intro b hb
  refine key body.blocks.length {0} ?_ b hb
  intro x hx
  rw [Finset.mem_singleton.1 hx]
  exact Reachable.entry

theorem reachList_sound {body : Body} {b : Nat} (h : b ∈ reachList body) :
    Reachable body b := by
  rw [reachList, List.mem_filter] at h
  exact reachableSet_sound b (of_decide_eq_true h.2)

theorem reachable_in_list {body : Body} {L : List Nat} (h0 : 0 ∈ L)
    (hcl : ∀ b ∈ L, ∀ t ∈ (body.block b).terminator.successors, t ∈ L) :
    ∀ b, Reachable body b → b ∈ L := by
  intro b h
  induction h with
  | entry => exact h0
  | step hb hs ih => exact hcl _ ih _ hs

theorem must_fix_reachable {body : Body} {σ : List MustPlaceSet}
    (hwf : WF body) (hlen : 0 < body.blocks.length)
    (hfix : isMustFixpoint body σ) :
    ∀ b, Reachable body b → b < body.blocks.length ∧
      ∃ s, σ.getD b MustPlaceSet.bottom = MustPlaceSet.Set s ∧
        ∀ q ∈ s, ∃ b0, Reachable body b0 ∧ q ∈ genSet (body.block b0) := by
  intro b h
  induction h with
  | entry =>
    refine ⟨hlen, ?_⟩
    have h1 := fix_ge_init hfix hlen
    rw [show mustInitVal 0 = MustPlaceSet.Set ∅ from rfl] at h1
    obtain ⟨t, ht, hsub⟩ := MustPlaceSet.set_le_dest h1
    exact ⟨t, ht, fun q hq => absurd (hsub hq) (Finset.not_mem_empty q)⟩
  | @step b b' hb hsucc ih =>
    obtain ⟨hblt, s, hset, hprop⟩ := ih
    have hb'lt : b' < body.blocks.length := hwf b hblt b' hsucc
    have hpred : b ∈ preds body b' := mem_preds.mpr ⟨hblt, hsucc⟩
    have h2 := fix_ge_pred hfix hb'lt hpred
    rw [mustEdgeValue_eq, hset, mustBlockOut_set] at h2
    obtain ⟨t, ht, hsub⟩ := MustPlaceSet.set_le_dest h2
    refine ⟨hb'lt, t, ht, fun q hq => ?_⟩
    rcases Finset.mem_union.1 (hsub hq) with h | h
    · exact hprop q h
    · exact ⟨b, hb, h⟩

theorem foldl_if_last {β : Type} (g : Nat → β) (c : Nat → Bool) :
    ∀ (L : List Nat) (a : Option β),
      L.foldl (fun acc b => if c b then some (g b) else acc) a
        = ((L.reverse.find? c).map g).or a := by
  intro L
  induction L with
  | nil => intro a; simp
  | cons b L ih =>
    intro a
    rw [List.foldl_cons, ih, List.reverse_cons, List.find?_append]
    cases hf : L.reverse.find? c with
    | some x => simp [Option.or]
    | none =>
      cases hcb : c b <;> simp [hcb, Option.or, List.find?]

theorem returnFold_eq (body : Body) (σ : List MustPlaceSet) :
    returnFold body σ
      = ((reachList body).reverse.find?
          (fun b => (body.block b).terminator == TerminatorKind.Return)).map
          (fun b => mustBlockOut (body.block b) (σ.getD b MustPlaceSet.bottom)) := by
  rw [returnFold, foldl_if_last, Option.or_none]

theorem mustCombined_isSome {body : Body} {σ : List MustPlaceSet}
    (hwf : WF body) (hlen : 0 < body.blocks.length)
    (hfix : isMustFixpoint body σ) :
    (mustCombined body σ).into_set.isSome = true := by
  rw [mustCombined, returnFold_eq]
  cases hf : (reachList body).reverse.find?
      (fun b => (body.block b).terminator == TerminatorKind.Return) with
  | none => rfl
  | some b =>
    have hb : b ∈ reachList body := List.mem_reverse.1 (List.mem_of_find?_eq_some hf)
    have hreach := reachList_sound hb
    obtain ⟨hlt, s, hset, _⟩ := must_fix_reachable hwf hlen hfix b hreach
    simp only [Option.map_some', Option.getD_some]
    rw [hset, mustBlockOut_set]
    rfl

theorem mem_read_gen_fold :
    ∀ (places : List Place) (st : MayPlaceSet) (q : Place),
      (q ∈ places.foldl
          (fun state place =>
            if place.is_indirect_first_projection then MayPlaceSet.gen state place
            else state)
          st)
        ↔ (q ∈ places ∧ q.is_indirect_first_projection = true) ∨ q ∈ st := by
  intro places
  induction places with
  | nil => intro st q; simp
  | cons p ps ih =>
    intro st q
    rw [List.foldl_cons]
    by_cases hp : p.is_indirect_first_projection = true
    · rw [if_pos hp, ih]
      constructor
      · rintro (⟨hq1, hq2⟩ | hq)
        · exact Or.inl ⟨List.mem_cons_of_mem p hq1, hq2⟩
        · rcases Finset.mem_insert.1 hq with h | h
          · subst h; exact Or.inl ⟨List.mem_cons_self _ _, hp⟩
          · exact Or.inr h
      · rintro (⟨hq1, hq2⟩ | hq)
        · rcases List.mem_cons.1 hq1 with h | h
          · subst h; exact Or.inr (Finset.mem_insert_self q st)
          · exact Or.inl ⟨h, hq2⟩
        · exact Or.inr (Finset.mem_insert_of_mem hq)
    · rw [if_neg hp, ih]
      constructor
      · rintro (⟨hq1, hq2⟩ | hq)
        · exact Or.inl ⟨List.mem_cons_of_mem p hq1, hq2⟩
        · exact Or.inr hq
      · rintro (⟨hq1, hq2⟩ | hq)
        · rcases List.mem_cons.1 hq1 with h | h
          · subst h; exact absurd hq2 hp
          · exact Or.inl ⟨h, hq2⟩
        · exact Or.inr hq

theorem add_opt_nil (opt : Option Place) : add_opt [] opt = opt.toList := by
  cases opt <;> rfl

theorem add_opt_pair (o1 o2 : Option Place) :
    add_opt (add_opt [] o1) o2 = o1.toList ++ o2.toList := by
  cases o1 <;> cases o2 <;> rfl

theorem foldl_add_opt :
    ∀ (os : List Operand) (acc : List Place),
      os.foldl (fun places o => add_opt places o.place) acc
        = acc ++ os.filterMap Operand.place := by
  intro os
  induction os with
  | nil => intro acc; simp
  | cons o os ih =>
    intro acc
    rw [List.foldl_cons, ih, List.filterMap_cons]
    cases h : o.place with
    | none => simp [add_opt]
    | some p => simp [add_opt]

theorem mem_genAux_empty :
    ∀ (stmts : List Statement) (q : Place),
      q ∈ genAux stmts ∅
        ↔ ∃ rhs, Statement.Assign q rhs ∈ stmts
            ∧ q.is_indirect_first_projection = true := by
  intro stmts
  induction stmts with
  | nil => intro q; simp [genAux]
  | cons st rest ih =>
    intro q
    cases st with
    | Assign place rhs =>
      rw [genAux_cons_assign]
      by_cases h : place.is_indirect_first_projection = true
      · rw [if_pos h, genAux_union rest (insert place ∅)]
        constructor
        · intro hq
          rcases Finset.mem_union.1 hq with hq | hq
          · rcases Finset.mem_insert.1 hq with hq | hq
            · subst hq
              exact ⟨rhs, List.mem_cons_self _ _, h⟩
            · exact absurd hq (Finset.not_mem_empty q)
          · obtain ⟨r, hr, hqi⟩ := (ih q).1 hq
            exact ⟨r, List.mem_cons_of_mem _ hr, hqi⟩
        · rintro ⟨r, hr, hqi⟩
          rcases List.mem_cons.1 hr with hr | hr
          · obtain ⟨hq, -⟩ := Statement.Assign.inj hr
            subst hq
            exact Finset.mem_union_left _ (Finset.mem_insert_self _ _)
          · exact Finset.mem_union_right _ ((ih q).2 ⟨r, hr, hqi⟩)
      · rw [if_neg h, ih]
        constructor
        · rintro ⟨r, hr, hqi⟩
          exact ⟨r, List.mem_cons_of_mem _ hr, hqi⟩
        · rintro ⟨r, hr, hqi⟩
          rcases List.mem_cons.1 hr with hr | hr
          · obtain ⟨hq, -⟩ := Statement.Assign.inj hr
            subst hq
            exact absurd hqi h
          · exact ⟨r, hr, hqi⟩
    | Nop =>
      rw [genAux_cons_nop, ih]
      constructor
      · rintro ⟨r, hr, hqi⟩
        exact ⟨r, List.mem_cons_of_mem _ hr, hqi⟩
      · rintro ⟨r, hr, hqi⟩
        rcases List.mem_cons.1 hr with hr | hr
        · cases hr
        · exact ⟨r, hr, hqi⟩

theorem writeFold_union :
    ∀ (blocks : List BasicBlockData) (acc : Finset Place),
      blocks.foldl (fun acc bb => genAux bb.statements acc) acc
        = acc ∪ blocks.foldl (fun acc bb => genAux bb.statements acc) ∅ := by
  intro blocks
  induction blocks with
  | nil => intro acc; simp
  | cons bb rest ih =>
    intro acc
    rw [List.foldl_cons, List.foldl_cons, ih (genAux bb.statements acc),
      ih (genAux bb.statements ∅), genAux_union bb.statements acc,
      Finset.union_assoc]

theorem mem_writeFold :
    ∀ (blocks : List BasicBlockData) (q : Place),
      q ∈ blocks.foldl (fun acc bb => genAux bb.statements acc) ∅
        ↔ ∃ bb ∈ blocks, ∃ rhs, Statement.Assign q rhs ∈ bb.statements
            ∧ q.is_indirect_first_projection = true := by
  intro blocks
  induction blocks with
  | nil => intro q; simp
  | cons bb rest ih =>
    intro q
    rw [List.foldl_cons, writeFold_union rest (genAux bb.statements ∅)]
    constructor
    · intro hq
      rcases Finset.mem_union.1 hq with hq | hq
      · obtain ⟨r, hr, hqi⟩ := (mem_genAux_empty bb.statements q).1 hq
        exact ⟨bb, List.mem_cons_self _ _, r, hr, hqi⟩
      · obtain ⟨bb', hbb', r, hr, hqi⟩ := (ih q).1 hq
        exact ⟨bb', List.mem_cons_of_mem _ hbb', r, hr, hqi⟩
    · rintro ⟨bb', hbb', r, hr, hqi⟩
      rcases List.mem_cons.1 hbb' with hbb' | hbb'
      · subst hbb'
        exact Finset.mem_union_left _
          ((mem_genAux_empty bb'.statements q).2 ⟨r, hr, hqi⟩)
      · exact Finset.mem_union_right _ ((ih q).2 ⟨bb', hbb', r, hr, hqi⟩)

theorem mem_writeVisitor (body : Body) (q : Place) :
    q ∈ writeVisitor body
      ↔ ∃ bb ∈ body.blocks, ∃ rhs, Statement.Assign q rhs ∈ bb.statements
          ∧ q.is_indirect_first_projection = true :=
  mem_writeFold body.blocks q

theorem classify_some_dest {params : Nat} {body : Body} {mw yw : Finset Place}
    (h : classify params body = some (mw, yw)) :
    ∃ m, (mustCombined body (mustResults body)).into_set = some m
      ∧ mw = m.filter (fun place => place ∈ restrictWrites params body)
      ∧ yw = (restrictWrites params body).filter (fun place => place ∉ mw) := by
  by_cases hW : restrictWrites params body = ∅
  · simp [classify, hW] at h
  · cases hm : (mustCombined body (mustResults body)).into_set with
    | none => simp [classify, hW, hm] at h
    | some m =>
      simp only [classify, hW, hm, if_neg, if_false, ite_false] at h
      refine ⟨m, rfl, ?_⟩
      obtain ⟨h1, h2⟩ := Prod.mk.injEq .. ▸ Option.some.inj h
      exact ⟨h1.symm, h2.symm ▸ h1 ▸ rfl⟩

/-- C2: whenever the classifier produces result sets for a function body,
the must-write set is contained in the restricted write set, the must- and
may-write sets are disjoint, and their union is exactly the restricted
write set. -/
theorem partition_law {params : Nat} {body : Body} {mw yw : Finset Place}
    (h : classify params body = some (mw, yw)) :
    mw ⊆ restrictWrites params body ∧ Disjoint mw yw
      ∧ mw ∪ yw = restrictWrites params body := by
  obtain ⟨m, -, hmw, hyw⟩ := classify_some_dest h
  subst hyw
  subst hmw
  refine ⟨?_, ?_, ?_⟩
  · intro q hq
    exact (Finset.mem_filter.1 hq).2
  · rw [Finset.disjoint_left]
    intro q hq hq2
    exact (Finset.mem_filter.1 hq2).2 hq
  · ext q
    simp only [Finset.mem_union, Finset.mem_filter]
    tauto

/-- C2 witness: the straight-line body `*p = 1; return` classifies to
`({*p}, {})`, and those sets satisfy the partition law. -/
theorem partition_law_witness :
    classify 1 exStraight = some ({pDeref}, ∅)
      ∧ (({pDeref} : Finset Place) ⊆ restrictWrites 1 exStraight
          ∧ Disjoint ({pDeref} : Finset Place) (∅ : Finset Place)
          ∧ ({pDeref} : Finset Place) ∪ ∅ = restrictWrites 1 exStraight) :=
  ⟨by decide, partition_law (by decide)⟩

/-- C3: the restricted write set holds exactly the collected writes whose
root local is a strict parameter index (excluding the return slot, local
0) and which are absent from the Reads-Before-Write entry value. -/
theorem restrictWrites_mem (params : Nat) (body : Body) (q : Place) :
    q ∈ restrictWrites params body
      ↔ q ∈ writeVisitor body ∧ 0 < q.localIdx ∧ q.localIdx ≤ params
          ∧ q ∉ readEntry body := by
  simp [restrictWrites, Finset.mem_filter, and_assoc]

/-- C5: the must-lattice join is intersection on two concrete sets, and
joining any value with `All` (the spec's `Top`, the join identity acting
as this lattice's bottom) yields the other operand unchanged, on either
side. -/
theorem mustPlaceSet_join_spec (a b : Finset Place) (x : MustPlaceSet) :
    ((MustPlaceSet.Set a).join (MustPlaceSet.Set b)).1 = MustPlaceSet.Set (a ∩ b)
      ∧ (x.join MustPlaceSet.All).1 = x
      ∧ (MustPlaceSet.All.join x).1 = x := by
  refine ⟨?_, ?_, ?_⟩
  · show MustPlaceSet.Set (a.filter (fun p => p ∈ b)) = MustPlaceSet.Set (a ∩ b)
    rw [Finset.filter_mem_eq_inter]
  · cases x <;> rfl
  · cases x <;> rfl

/-- C6: the Must-Write analysis starts the entry block at the concrete
empty set and every other block at `All` (the spec's `Top`), and its
transfer is gen-only: on a concrete state, a statement effect and a whole
block transfer only ever enlarge the set. -/
theorem mustWrite_init_and_monotone :
    mustInitVal 0 = MustPlaceSet.Set ∅
      ∧ (∀ b : Nat, mustInitVal (b + 1) = MustPlaceSet.All)
      ∧ (∀ (s : Finset Place) (stmt : Statement),
          ∃ s2, WriteAnalysis.apply_statement_effect (MustPlaceSet.Set s) stmt
              = MustPlaceSet.Set s2 ∧ s ⊆ s2)
      ∧ (∀ (s : Finset Place) (bb : BasicBlockData),
          ∃ s2, mustBlockOut bb (MustPlaceSet.Set s) = MustPlaceSet.Set s2
            ∧ s ⊆ s2) := by
  refine ⟨rfl, fun b => rfl, ?_, ?_⟩
  · intro s stmt
    cases stmt with
    | Assign place rhs =>
      by_cases h : place.is_indirect_first_projection = true
      · refine ⟨insert place s, ?_, Finset.subset_insert place s⟩
        simp [WriteAnalysis.apply_statement_effect, h, MustPlaceSet.gen]
      · refine ⟨s, ?_, Finset.Subset.refl s⟩
        simp [WriteAnalysis.apply_statement_effect, h]
    | Nop => exact ⟨s, rfl, Finset.Subset.refl s⟩
  · intro s bb
    exact ⟨s ∪ genSet bb, mustBlockOut_set bb s, Finset.subset_union_left⟩

/-- C7: the operand places extracted from each right-hand-side shape —
use, repeat, cast, unary op and box initialization contribute at most
their one operand place; binary and checked-binary ops up to two;
aggregates one per field operand; copy-for-dereference its place directly;
reference-taking, thread-local, address-of, length, nullary and
discriminant operations contribute none. -/
theorem rvalue_to_places_spec (o o1 o2 : Operand) (os : List Operand) (p : Place) :
    rvalue_to_places (Rvalue.Use o) = o.place.toList
      ∧ rvalue_to_places (Rvalue.Repeat o) = o.place.toList
      ∧ rvalue_to_places (Rvalue.Cast o) = o.place.toList
      ∧ rvalue_to_places (Rvalue.UnaryOp o) = o.place.toList
      ∧ rvalue_to_places (Rvalue.ShallowInitBox o) = o.place.toList
      ∧ rvalue_to_places (Rvalue.BinaryOp o1 o2) = o1.place.toList ++ o2.place.toList
      ∧ rvalue_to_places (Rvalue.CheckedBinaryOp o1 o2)
          = o1.place.toList ++ o2.place.toList
      ∧ rvalue_to_places (Rvalue.Aggregate os) = os.filterMap Operand.place
      ∧ rvalue_to_places (Rvalue.CopyForDeref p) = [p]
      ∧ rvalue_to_places (Rvalue.Ref p) = []
      ∧ rvalue_to_places Rvalue.ThreadLocalRef = []
      ∧ rvalue_to_places (Rvalue.AddressOf p) = []
      ∧ rvalue_to_places (Rvalue.Len p) = []
      ∧ rvalue_to_places Rvalue.NullaryOp = []
      ∧ rvalue_to_places (Rvalue.Discriminant p) = [] := by
  refine ⟨add_opt_nil _, add_opt_nil _, add_opt_nil _, add_opt_nil _, add_opt_nil _,
    add_opt_pair _ _, add_opt_pair _ _, ?_, rfl, rfl, rfl, rfl, rfl, rfl, rfl⟩
  exact (foldl_add_opt os []).trans (List.nil_append _)

/-- C8: terminator effects of both analyses leave the dataflow state
unchanged, and the call-return effect neither adds a place to nor removes
a place from the state. -/
theorem terminator_and_call_return_noop (s : MayPlaceSet) (s2 : MustPlaceSet)
    (t : TerminatorKind) (destination : Place) (q : Place) :
    ReadAnalysis.apply_terminator_effect s t = s
      ∧ WriteAnalysis.apply_terminator_effect s2 t = s2
      ∧ ReadAnalysis.apply_call_return_effect s destination = s
      ∧ WriteAnalysis.apply_call_return_effect s2 destination = s2
      ∧ (q ∈ ReadAnalysis.apply_call_return_effect s destination ↔ q ∈ s) :=
  ⟨rfl, rfl, rfl, rfl, Iff.rfl⟩

/-- C4: the backward Reads-Before-Write transfer of an assignment first
removes an indirect-first-projection left-hand side from the demand set
and then adds every indirect-first-projection place read by the
right-hand side (so a place both killed and re-read stays demanded); and
on the body `let x = *p; *p = x + 1;` the parameter place `*p` is in the
entry value and the function is excluded from classification. -/
theorem read_transfer_and_read_before_write :
    (∀ (state : MayPlaceSet) (lhs : Place) (rhs : Rvalue) (q : Place),
        q ∈ ReadAnalysis.apply_statement_effect state (Statement.Assign lhs rhs)
          ↔ (q ∈ rvalue_to_places rhs ∧ q.is_indirect_first_projection = true)
            ∨ (q ∈ state ∧ ¬(lhs.is_indirect_first_projection = true ∧ q = lhs)))
      ∧ isReadFixpoint exReadWrite (readResults exReadWrite)
      ∧ pDeref ∈ readEntry exReadWrite
      ∧ classify 1 exReadWrite = none := by
  refine ⟨?_, by decide, by decide, by decide⟩
  intro state lhs rhs q
  rw [show ReadAnalysis.apply_statement_effect state (Statement.Assign lhs rhs)
      = (rvalue_to_places rhs).foldl
          (fun state place =>
            if place.is_indirect_first_projection then MayPlaceSet.gen state place
            else state)
          (if lhs.is_indirect_first_projection then MayPlaceSet.kill state lhs
           else state) from rfl,
    mem_read_gen_fold]
  by_cases h : lhs.is_indirect_first_projection = true
  · rw [if_pos h]
    simp only [MayPlaceSet.kill, Finset.mem_erase, h, true_and]
    tauto
  · rw [if_neg h]
    constructor
    · rintro (hq | hq)
      · exact Or.inl hq
      · exact Or.inr ⟨hq, fun hc => h hc.1⟩
    · rintro (hq | hq)
      · exact Or.inl hq
      · exact Or.inr hq.1

theorem not_mem_mustCombined {body : Body} {σ : List MustPlaceSet} {q : Place}
    (hwf : WF body) (hlen : 0 < body.blocks.length)
    (hfix : isMustFixpoint body σ)
    (hdead : ∀ b, Reachable body b → q ∉ genSet (body.block b))
    {m : Finset Place} (hm : (mustCombined body σ).into_set = some m) :
    q ∉ m := by
  rw [mustCombined, returnFold_eq] at hm
  cases he : (reachList body).reverse.find?
      (fun b => (body.block b).terminator == TerminatorKind.Return) with
  | none =>
    rw [he] at hm
    have : (∅ : Finset Place) = m := Option.some.inj hm
    rw [← this]
    exact Finset.not_mem_empty q
  | some b =>
    rw [he] at hm
    simp only [Option.map_some', Option.getD_some] at hm
    have hreach : Reachable body b :=
      reachList_sound (List.mem_reverse.1 (List.mem_of_find?_eq_some he))
    obtain ⟨-, s, hset, hall⟩ := must_fix_reachable hwf hlen hfix b hreach
    rw [hset, mustBlockOut_set] at hm
    have hms : s ∪ genSet (body.block b) = m := Option.some.inj hm
    rw [← hms]
    intro hqm
    rcases Finset.mem_union.1 hqm with hq | hq
    · obtain ⟨b0, hb0, hq0⟩ := hall q hq
      exact hdead b0 hb0 hq0
    · exact hdead b hreach hq

/-- C9: at any fixpoint of the Must-Write analysis on a well-formed body,
the state at every reachable Return terminator is a concrete `Set` (never
`All`), and the classifier's `into_set`-then-unwrap extraction of the
combined value always succeeds. -/
theorem must_return_state_concrete {body : Body} {σ : List MustPlaceSet}
    (hwf : WF body) (hlen : 0 < body.blocks.length)
    (hfix : isMustFixpoint body σ) :
    (∀ b, Reachable body b → (body.block b).terminator = TerminatorKind.Return →
        ∃ s, mustBlockOut (body.block b) (σ.getD b MustPlaceSet.bottom)
            = MustPlaceSet.Set s)
      ∧ (mustCombined body σ).into_set.isSome = true := by
  refine ⟨?_, mustCombined_isSome hwf hlen hfix⟩
  intro b hreach _
  obtain ⟨-, s, hset, -⟩ := must_fix_reachable hwf hlen hfix b hreach
  refine ⟨s ∪ genSet (body.block b), ?_⟩
  rw [hset, mustBlockOut_set]

/-- C9 witness: the hypotheses hold for the straight-line body and the
extraction succeeds there. -/
theorem must_return_state_concrete_witness :
    (WF exStraight ∧ 0 < exStraight.blocks.length
        ∧ isMustFixpoint exStraight (mustResults exStraight))
      ∧ (mustCombined exStraight (mustResults exStraight)).into_set.isSome = true :=
  ⟨⟨by decide, by decide, by decide⟩,
    (must_return_state_concrete (by decide) (by decide) (by decide)).2⟩

/-- C10: the Write Collector gathers the indirectly assigned place of
every assignment in every basic block, reachable or not; and a place
written only in unreachable code that nevertheless survives the
restriction step is reported as a may-write. -/
theorem dead_write_is_may_write :
    (∀ (body : Body) (q : Place),
        q ∈ writeVisitor body
          ↔ ∃ bb ∈ body.blocks, ∃ rhs, Statement.Assign q rhs ∈ bb.statements
              ∧ q.is_indirect_first_projection = true)
      ∧ (∀ (params : Nat) (body : Body) (q : Place),
          WF body → 0 < body.blocks.length →
          isMustFixpoint body (mustResults body) →
          (∀ b, Reachable body b → q ∉ genSet (body.block b)) →
          q ∈ restrictWrites params body →
          ∃ mw yw, classify params body = some (mw, yw) ∧ q ∈ yw) := by
  refine ⟨mem_writeVisitor, ?_⟩
  intro params body q hwf hlen hfix hdead hq
  have hsome := mustCombined_isSome hwf hlen hfix
  obtain ⟨m, hm⟩ := Option.isSome_iff_exists.1 hsome
  have hqm : q ∉ m := not_mem_mustCombined hwf hlen hfix hdead hm
  have hWne : ¬restrictWrites params body = ∅ := by
    intro hW
    rw [hW] at hq
    exact absurd hq (Finset.not_mem_empty q)
  refine ⟨m.filter (fun place => place ∈ restrictWrites params body),
    (restrictWrites params body).filter
      (fun place => place ∉ m.filter (fun place => place ∈ restrictWrites params body)),
    ?_, ?_⟩
  · simp [classify, hWne, hm]
  · refine Finset.mem_filter.2 ⟨hq, ?_⟩
    intro hc
    exact hqm (Finset.mem_filter.1 hc).1

/-- C10 witness: on the body whose only write to `*p` is in an
unreachable block, the hypotheses hold concretely and `*p` lands in the
may-write set. -/
theorem dead_write_is_may_write_witness :
    (WF exDeadWrite ∧ 0 < exDeadWrite.blocks.length
        ∧ isMustFixpoint exDeadWrite (mustResults exDeadWrite)
        ∧ pDeref ∈ restrictWrites 1 exDeadWrite)
      ∧ ∃ mw yw, classify 1 exDeadWrite = some (mw, yw) ∧ pDeref ∈ yw := by
  have hdead : ∀ b, Reachable exDeadWrite b →
      pDeref ∉ genSet (exDeadWrite.block b) := by
    intro b hb
    have hbL : b ∈ [0] := reachable_in_list (by decide) (by decide) b hb
    have hb0 : b = 0 := by simpa using hbL
    subst hb0
    decide
  exact ⟨⟨by decide, by decide, by decide, by decide⟩,
    dead_write_is_may_write.2 1 exDeadWrite pDeref (by decide) (by decide)
      (by decide) hdead (by decide)⟩

/-- C1 counterexample: on the two-return body
`if c { *p = 1; return } else { *q = 1; return }`, at the engine's
fixpoint, the combined value the classifier consumes is not the
intersection join of the Must-Write values at the reachable Return
terminators. -/
theorem combined_not_return_join_cex :
    isMustFixpoint exTwoReturns (mustResults exTwoReturns)
      ∧ mustCombined exTwoReturns (mustResults exTwoReturns)
          ≠ mustCombinedSpec exTwoReturns (mustResults exTwoReturns) :=
  ⟨by decide, by decide⟩

/-- C1 amended: the combined must-write value the classifier consumes is
the Must-Write value at the last reachable Return terminator in the
visitor's block order (each Return overwrites the stored value), and the
concrete empty set when no reachable Return exists; with at most one
reachable Return this coincides with the claimed intersection join. -/
theorem combined_is_last_return (body : Body) (σ : List MustPlaceSet) :
    mustCombined body σ
      = (((reachList body).reverse.find?
            (fun b => (body.block b).terminator == TerminatorKind.Return)).map
          (fun b => mustBlockOut (body.block b) (σ.getD b MustPlaceSet.bottom))).getD
          MustPlaceSet.top := by
  rw [mustCombined, returnFold_eq]

end Nopcrat
